import Mathlib

/-! Verification development for `src/program.cpp` (rjson): a JSON value
model (`json_data`), the yajl-callback-driven incremental tree builder
(`json_data_state` and its `insert`, plus the `reader_cb` callback table
modelled by `step`), and the recursive serializer walk (`generate_json`).

The C++ builder state holds raw pointers (`std::stack<json_data*>`,
`json_data *root`) into a tree built from node-stable containers
(`std::list`, `std::unordered_map`); nothing is ever erased from a
container, so a pointer corresponds exactly to the access path from the
root at which the node was created.  The embedding therefore represents a
`json_data*` as a `path` (a list of map-key / array-index steps) and
dereferences it with `getPath`.

`std::unordered_map` is modelled as an association list whose membership
semantics mirror the operations the program actually performs: `emplace`
(insert only if the key is absent) and `at` (lookup).  Enumeration order
of `std::unordered_map` is unspecified; the association-list order is one
admissible enumeration order, and no theorem below depends on it.

`std::stack::pop()` on an empty stack is undefined behaviour in C++; the
end-map / end-array callbacks call it unconditionally.  The step relation
makes this explicit with the distinguished outcome `step_result.ub`.
A callback returning 0 makes yajl cancel the parse; that outcome is
`step_result.cancelled` (carrying the untouched state). -/

/-- Tagged union `json_type` + `json_data` of program.cpp (lines 42-130):
null, boolean, 64-bit integer, double, string, map (Object) and array.
Integer payloads are modelled as `Int` (no arithmetic is ever performed on
them, so overflow never matters); double payloads as `Float`, never
inspected by any claim. -/
inductive json_data : Type where
  | null : json_data
  | boolean : Bool → json_data
  | integer : Int → json_data
  | real : Float → json_data
  | string : String → json_data
  | map : List (String × json_data) → json_data
  | array : List json_data → json_data

/-- One step of an access path into a `json_data` tree: an Object key or
an Array index. -/
inductive path_step : Type where
  | key : String → path_step
  | idx : Nat → path_step

/-- Access path from the root of a tree to a node: the embedding of a
`json_data*` into the node-stable tree. -/
abbrev path := List path_step

/-- Lookup in the association-list model of `std::unordered_map`
(first matching key wins; keys are unique in every map the builder
constructs, since it only ever inserts via `emplace`). -/
def lookupKey : List (String × json_data) → String → Option json_data
  | [], _ => none
  | (k', v) :: rest, k => if k' = k then some v else lookupKey rest k

/-- Replace the value stored under an existing key, keeping the entry in
place (the node-stable in-place update of a map member). -/
def setKey : List (String × json_data) → String → json_data → List (String × json_data)
  | [], _, _ => []
  | (k', v) :: rest, k, w => if k' = k then (k', w) :: rest else (k', v) :: setKey rest k w

/-- Positional lookup in a list (the embedding of following a pointer to
the n-th node of a `std::list`). -/
def getIdx {α : Type} : List α → Nat → Option α
  | [], _ => none
  | x :: _, 0 => some x
  | _ :: xs, n + 1 => getIdx xs n

/-- Replace the n-th element of a list in place. -/
def setIdx {α : Type} : List α → Nat → α → List α
  | [], _, _ => []
  | _ :: xs, 0, y => y :: xs
  | x :: xs, n + 1, y => x :: setIdx xs n y

/-- Dereference a path in a tree (the embedding of following a
`json_data*`). -/
def getPath : json_data → path → Option json_data
  | t, [] => some t
  | json_data.map es, path_step.key k :: p =>
      match lookupKey es k with
      | some v => getPath v p
      | none => none
  | json_data.array xs, path_step.idx n :: p =>
      match getIdx xs n with
      | some v => getPath v p
      | none => none
  | _, _ => none

/-- Discrimination used by the insert dispatch: only `map` and `array`
nodes accept children (program.cpp lines 150 and 155). -/
def is_container : json_data → Bool
  | json_data.map _ => true
  | json_data.array _ => true
  | _ => false

/-- Perform the container-dispatch part of `json_data_state::insert`
(program.cpp lines 149-166) at the node addressed by `p`: if that node is
an array, `emplace_back` the new value `v` (returning the path of the new
back element); if it is a map, `emplace(tempKey, v)` — which inserts only
if key `k` is absent, as `std::unordered_map::emplace` does — and return
the path of `map.at(k)`, i.e. of whatever value now sits under `k`
(the pre-existing one if `k` was already present).  Any other node kind
yields `none` (the `return nullptr` at line 166). -/
def insertAt : json_data → path → String → json_data → Option (json_data × path)
  | json_data.map es, [], k, v =>
      match lookupKey es k with
      | some _ => some (json_data.map es, [path_step.key k])
      | none => some (json_data.map (es ++ [(k, v)]), [path_step.key k])
  | json_data.array xs, [], _, v =>
      some (json_data.array (xs ++ [v]), [path_step.idx xs.length])
  | json_data.map es, path_step.key k :: p, tk, v =>
      match lookupKey es k with
      | some child =>
          match insertAt child p tk v with
          | some (child', q) => some (json_data.map (setKey es k child'), path_step.key k :: q)
          | none => none
      | none => none
  | json_data.array xs, path_step.idx n :: p, tk, v =>
      match getIdx xs n with
      | some child =>
          match insertAt child p tk v with
          | some (child', q) => some (json_data.array (setIdx xs n child'), path_step.idx n :: q)
          | none => none
      | none => none
  | _, _, _, _ => none

/-- Builder state `json_data_state` (program.cpp lines 132-137): the stack
of open-container pointers (modelled as paths; head = `stack.top()`), the
single-slot key buffer `tempKey`, and the root pointer. -/
structure json_data_state : Type where
  stack : List path
  tempKey : String
  root : Option json_data

/-- Member function `json_data_state::insert` (program.cpp lines 138-167):
if `root` is null, the new value becomes the root (path `[]`); else if the
stack is empty, fail (`return nullptr`, line 147); else dispatch on the
node the stack top points at via `insertAt`.  Returns the updated state
and the pointer (path) to the inserted — or, for a map collision, the
pre-existing — value, or `none` for the C++ `nullptr`. -/
def json_data_state.insert (s : json_data_state) (v : json_data) :
    Option (json_data_state × path) :=
  match s.root, s.stack with
  | none, _ => some ({ s with root := some v }, [])
  | some _, [] => none
  | some t, p :: _ =>
      match insertAt t p s.tempKey v with
      | some (t', q) => some ({ s with root := some t' }, q)
      | none => none

/-- Structural parse events delivered by yajl to the `reader_cb` callback
table (program.cpp lines 244-321), one constructor per callback. -/
inductive event : Type where
  | read_null : event
  | read_boolean : Bool → event
  | read_integer : Int → event
  | read_double : Float → event
  | read_string : String → event
  | start_map : event
  | map_key : String → event
  | end_map : event
  | start_array : event
  | end_array : event

/-- Outcome of delivering one event to the builder: `ok` (callback
returned 1), `cancelled` (callback returned 0, yajl aborts the parse; the
state is left untouched), or `ub` (the callback executed
`std::stack::pop()` on an empty stack — undefined behaviour). -/
inductive step_result : Type where
  | ok : json_data_state → step_result
  | cancelled : json_data_state → step_result
  | ub : step_result

/-- One callback invocation of the `reader_cb` table (program.cpp lines
244-321).  Scalar callbacks insert and report failure iff `insert`
returned null; start-map/start-array insert an empty container and push
the returned pointer; the map-key callback unconditionally overwrites
`tempKey`; end-map/end-array unconditionally pop the stack. -/
def step (s : json_data_state) (e : event) : step_result :=
  match e with
  | event.read_null =>
      match s.insert json_data.null with
      | some (s', _) => step_result.ok s'
      | none => step_result.cancelled s
  | event.read_boolean b =>
      match s.insert (json_data.boolean b) with
      | some (s', _) => step_result.ok s'
      | none => step_result.cancelled s
  | event.read_integer i =>
      match s.insert (json_data.integer i) with
      | some (s', _) => step_result.ok s'
      | none => step_result.cancelled s
  | event.read_double r =>
      match s.insert (json_data.real r) with
      | some (s', _) => step_result.ok s'
      | none => step_result.cancelled s
  | event.read_string str =>
      match s.insert (json_data.string str) with
      | some (s', _) => step_result.ok s'
      | none => step_result.cancelled s
  | event.start_map =>
      match s.insert (json_data.map []) with
      | some (s', q) => step_result.ok { s' with stack := q :: s'.stack }
      | none => step_result.cancelled s
  | event.map_key k => step_result.ok { s with tempKey := k }
  | event.end_map =>
      match s.stack with
      | [] => step_result.ub
      | _ :: rest => step_result.ok { s with stack := rest }
  | event.start_array =>
      match s.insert (json_data.array []) with
      | some (s', q) => step_result.ok { s' with stack := q :: s'.stack }
      | none => step_result.cancelled s
  | event.end_array =>
      match s.stack with
      | [] => step_result.ub
      | _ :: rest => step_result.ok { s with stack := rest }

/-- Initial builder state (program.cpp line 323: `{{}, "", nullptr}`). -/
def init_state : json_data_state := { stack := [], tempKey := "", root := none }

/-- Deliver a list of events from a given state, stopping at the first
cancellation or undefined behaviour. -/
def run_events : json_data_state → List event → step_result
  | s, [] => step_result.ok s
  | s, e :: es =>
      match step s e with
      | step_result.ok s' => run_events s' es
      | r => r

/-- Deliver a list of events starting from the initial state. -/
def run (es : List event) : step_result := run_events init_state es

/-- Output primitives of the external text encoder (yajl_gen), one
constructor per `yajl_gen_*` call that `generate_json` performs. -/
inductive gen_event : Type where
  | gen_null : gen_event
  | gen_bool : Bool → gen_event
  | gen_integer : Int → gen_event
  | gen_double : Float → gen_event
  | gen_string : String → gen_event
  | map_open : gen_event
  | map_close : gen_event
  | array_open : gen_event
  | array_close : gen_event

mutual

/-- Serializer walk `generate_json` (program.cpp lines 170-218): emit the
encoder call for a scalar; for a map, `map_open`, then key string and
recursively rendered value for each member in enumeration order, then
`map_close`; for an array, `array_open`, each element recursively in
stored order, `array_close`.  The encoder itself is external (spec §1);
its status results are not modelled, so the walk is a pure emission of the
call sequence. -/
def generate_json : json_data → List gen_event
  | json_data.null => [gen_event.gen_null]
  | json_data.boolean b => [gen_event.gen_bool b]
  | json_data.integer i => [gen_event.gen_integer i]
  | json_data.real r => [gen_event.gen_double r]
  | json_data.string str => [gen_event.gen_string str]
  | json_data.map es => gen_event.map_open :: generate_entries es ++ [gen_event.map_close]
  | json_data.array xs => gen_event.array_open :: generate_list xs ++ [gen_event.array_close]

/-- Emission of a map's members (the range-for at program.cpp lines
192-201), in enumeration order. -/
def generate_entries : List (String × json_data) → List gen_event
  | [] => []
  | (k, v) :: rest => gen_event.gen_string k :: (generate_json v ++ generate_entries rest)

/-- Emission of an array's elements (the range-for at program.cpp lines
209-214), in stored order. -/
def generate_list : List json_data → List gen_event
  | [] => []
  | v :: rest => generate_json v ++ generate_list rest

end

/-- Validity of the builder state: every open-container pointer on the
stack dereferences to some node of the current tree. -/
def StateInv (s : json_data_state) : Prop :=
  ∀ p ∈ s.stack, ∃ t w, s.root = some t ∧ getPath t p = some w

/-- Builder states reachable by delivering some event sequence to a fresh
builder. -/
def Reachable (s : json_data_state) : Prop := ∃ es, run es = step_result.ok s

/-- Lookup distributes over append: the first list is consulted first. -/
theorem lookupKey_append (es fs : List (String × json_data)) (k : String) :
    lookupKey (es ++ fs) k =
      match lookupKey es k with
      | some v => some v
      | none => lookupKey fs k := by
  induction es with
  | nil => simp [lookupKey]
  | cons e rest ih =>
      obtain ⟨k', v⟩ := e
      by_cases h : k' = k <;> simp [lookupKey, h, ih]

/-- A key found in the original list is still found, with the same value,
after entries are appended behind it. -/
theorem lookupKey_append_left (es fs : List (String × json_data)) (k : String)
    (v : json_data) (h : lookupKey es k = some v) : lookupKey (es ++ fs) k = some v := by
  rw [lookupKey_append, h]

/-- Appending an entry for an absent key makes that key resolve to the
appended value. -/
theorem lookupKey_append_absent (es : List (String × json_data)) (k : String)
    (v : json_data) (h : lookupKey es k = none) :
    lookupKey (es ++ [(k, v)]) k = some v := by
  rw [lookupKey_append, h]
  simp [lookupKey]

/-- Updating the value under a present key makes lookup return the new
value. -/
theorem lookupKey_setKey_self (es : List (String × json_data)) (k : String)
    (v w : json_data) (h : lookupKey es k = some v) :
    lookupKey (setKey es k w) k = some w := by
  induction es with
  | nil => simp [lookupKey] at h
  | cons e rest ih =>
      obtain ⟨k', u⟩ := e
      by_cases hk : k' = k
      · simp [lookupKey, setKey, hk]
      · simp [lookupKey, setKey, hk] at h ⊢
        exact ih h

/-- Updating the value under one key leaves lookups of other keys
unchanged. -/
theorem lookupKey_setKey_ne (es : List (String × json_data)) (k k' : String)
    (w : json_data) (h : k' ≠ k) : lookupKey (setKey es k w) k' = lookupKey es k' := by
  induction es with
  | nil => simp [setKey]
  | cons e rest ih =>
      obtain ⟨k₀, u⟩ := e
      by_cases hk : k₀ = k
      · have hk' : k₀ ≠ k' := fun hc => h (hc ▸ hk)
        simp [setKey, hk, lookupKey, hk', Ne.symm h]
      · simp only [setKey, hk, if_false, lookupKey]
        by_cases hk0 : k₀ = k'
        · simp [hk0]
        · simp [hk0, ih]

/-- Writing back the value a key already holds leaves the list unchanged. -/
theorem setKey_self_eq (es : List (String × json_data)) (k : String)
    (v : json_data) (h : lookupKey es k = some v) : setKey es k v = es := by
  induction es with
  | nil => simp [lookupKey] at h
  | cons e rest ih =>
      obtain ⟨k', u⟩ := e
      by_cases hk : k' = k
      · simp [lookupKey, hk] at h
        simp [setKey, hk, h]
      · simp [lookupKey, hk] at h
        simp [setKey, hk, ih h]

/-- An index valid in the original list reads the same element after
elements are appended behind it. -/
theorem getIdx_append_left {α : Type} (xs ys : List α) (n : Nat) (v : α)
    (h : getIdx xs n = some v) : getIdx (xs ++ ys) n = some v := by
  induction xs generalizing n with
  | nil => simp [getIdx] at h
  | cons x rest ih =>
      cases n with
      | zero => simpa [getIdx] using h
      | succ m =>
          simp [getIdx] at h ⊢
          exact ih m h

/-- Reading the position just past a list after appending one element
yields that element (the pointer `&array.back()` after `emplace_back`). -/
theorem getIdx_append_length {α : Type} (xs : List α) (v : α) :
    getIdx (xs ++ [v]) xs.length = some v := by
  induction xs with
  | nil => simp [getIdx]
  | cons x rest ih => simpa [getIdx] using ih

/-- Writing a list position makes reading it return the new element,
provided the position was valid. -/
theorem getIdx_setIdx_self {α : Type} (xs : List α) (n : Nat) (v w : α)
    (h : getIdx xs n = some v) : getIdx (setIdx xs n w) n = some w := by
  induction xs generalizing n with
  | nil => simp [getIdx] at h
  | cons x rest ih =>
      cases n with
      | zero => simp [getIdx, setIdx]
      | succ m =>
          simp [getIdx, setIdx] at h ⊢
          exact ih m h

/-- Writing one list position leaves reads of other positions unchanged. -/
theorem getIdx_setIdx_ne {α : Type} (xs : List α) (n m : Nat) (w : α)
    (h : m ≠ n) : getIdx (setIdx xs n w) m = getIdx xs m := by
  induction xs generalizing n m with
  | nil => simp [setIdx]
  | cons x rest ih =>
      cases n with
      | zero =>
          cases m with
          | zero => exact absurd rfl h
          | succ m' => simp [getIdx, setIdx]
      | succ n' =>
          cases m with
          | zero => simp [getIdx, setIdx]
          | succ m' =>
              simp [getIdx, setIdx]
              exact ih n' m' (fun hc => h (by simp [hc]))

/-- Path dereference distributes over path concatenation. -/
theorem getPath_append (p q : path) :
    ∀ t : json_data, getPath t (p ++ q) = (getPath t p).bind (fun m => getPath m q) := by
  induction p with
  | nil => intro t; simp [getPath]
  | cons s p' ih =>
      intro t
      cases t with
      | map es =>
          cases s with
          | key k =>
              cases hl : lookupKey es k with
              | none => simp [getPath, hl]
              | some c => simp [getPath, hl, ih]
          | idx n => simp [getPath]
      | array xs =>
          cases s with
          | key k => simp [getPath]
          | idx n =>
              cases hg : getIdx xs n with
              | none => simp [getPath, hg]
              | some c => simp [getPath, hg, ih]
      | null => cases s <;> simp [getPath]
      | boolean b => cases s <;> simp [getPath]
      | integer i => cases s <;> simp [getPath]
      | real r => cases s <;> simp [getPath]
      | string str => cases s <;> simp [getPath]

/-- Writing back the element a position already holds leaves the list
unchanged. -/
theorem setIdx_self_eq {α : Type} (xs : List α) (n : Nat) (v : α)
    (h : getIdx xs n = some v) : setIdx xs n v = xs := by
  induction xs generalizing n with
  | nil => simp [setIdx]
  | cons x rest ih =>
      cases n with
      | zero =>
          simp [getIdx] at h
          simp [setIdx, h]
      | succ m =>
          simp [getIdx] at h
          simp [setIdx, ih m h]

/-- Inserting through a pointer to an array (`emplace_back`): the call
succeeds, returns the pointer to the new back element, and the array now
holds its old elements followed by the new one. -/
theorem insertAt_of_array (p : path) :
    ∀ (t : json_data) (xs : List json_data) (k : String) (v : json_data),
    getPath t p = some (json_data.array xs) →
    ∃ t', insertAt t p k v = some (t', p ++ [path_step.idx xs.length]) ∧
      getPath t' p = some (json_data.array (xs ++ [v])) := by
  induction p with
  | nil =>
      intro t xs k v h
      simp [getPath] at h
      subst h
      exact ⟨json_data.array (xs ++ [v]), by simp [insertAt], by simp [getPath]⟩
  | cons s p' ih =>
      intro t xs k v h
      cases t with
      | map es =>
          cases s with
          | key k₀ =>
              cases hl : lookupKey es k₀ with
              | none => simp [getPath, hl] at h
              | some c =>
                  simp [getPath, hl] at h
                  obtain ⟨c', hc1, hc2⟩ := ih c xs k v h
                  refine ⟨json_data.map (setKey es k₀ c'), ?_, ?_⟩
                  · simp [insertAt, hl, hc1]
                  · simp [getPath, lookupKey_setKey_self es k₀ c c' hl, hc2]
          | idx n => simp [getPath] at h
      | array ys =>
          cases s with
          | key k₀ => simp [getPath] at h
          | idx n =>
              cases hg : getIdx ys n with
              | none => simp [getPath, hg] at h
              | some c =>
                  simp [getPath, hg] at h
                  obtain ⟨c', hc1, hc2⟩ := ih c xs k v h
                  refine ⟨json_data.array (setIdx ys n c'), ?_, ?_⟩
                  · simp [insertAt, hg, hc1]
                  · simp [getPath, getIdx_setIdx_self ys n c c' hg, hc2]
      | null => cases s <;> simp [getPath] at h
      | boolean b => cases s <;> simp [getPath] at h
      | integer i => cases s <;> simp [getPath] at h
      | real r => cases s <;> simp [getPath] at h
      | string str => cases s <;> simp [getPath] at h

/-- Inserting through a pointer to a map under an absent key
(`emplace` actually inserting): the call succeeds, returns the pointer
`&map.at(k)` to the new member, and the map gains exactly that member. -/
theorem insertAt_of_map_absent (p : path) :
    ∀ (t : json_data) (es : List (String × json_data)) (k : String) (v : json_data),
    getPath t p = some (json_data.map es) → lookupKey es k = none →
    ∃ t', insertAt t p k v = some (t', p ++ [path_step.key k]) ∧
      getPath t' p = some (json_data.map (es ++ [(k, v)])) := by
  induction p with
  | nil =>
      intro t es k v h hk
      simp [getPath] at h
      subst h
      exact ⟨json_data.map (es ++ [(k, v)]), by simp [insertAt, hk], by simp [getPath]⟩
  | cons s p' ih =>
      intro t es k v h hk
      cases t with
      | map es₀ =>
          cases s with
          | key k₀ =>
              cases hl : lookupKey es₀ k₀ with
              | none => simp [getPath, hl] at h
              | some c =>
                  simp [getPath, hl] at h
                  obtain ⟨c', hc1, hc2⟩ := ih c es k v h hk
                  refine ⟨json_data.map (setKey es₀ k₀ c'), ?_, ?_⟩
                  · simp [insertAt, hl, hc1]
                  · simp [getPath, lookupKey_setKey_self es₀ k₀ c c' hl, hc2]
          | idx n => simp [getPath] at h
      | array ys =>
          cases s with
          | key k₀ => simp [getPath] at h
          | idx n =>
              cases hg : getIdx ys n with
              | none => simp [getPath, hg] at h
              | some c =>
                  simp [getPath, hg] at h
                  obtain ⟨c', hc1, hc2⟩ := ih c es k v h hk
                  refine ⟨json_data.array (setIdx ys n c'), ?_, ?_⟩
                  · simp [insertAt, hg, hc1]
                  · simp [getPath, getIdx_setIdx_self ys n c c' hg, hc2]
      | null => cases s <;> simp [getPath] at h
      | boolean b => cases s <;> simp [getPath] at h
      | integer i => cases s <;> simp [getPath] at h
      | real r => cases s <;> simp [getPath] at h
      | string str => cases s <;> simp [getPath] at h

/-- Inserting through a pointer to a map under a key that is already
present: `emplace` does not insert, the tree is left completely
unchanged, and the returned pointer `&map.at(k)` addresses the
pre-existing member. -/
theorem insertAt_of_map_present (p : path) :
    ∀ (t : json_data) (es : List (String × json_data)) (k : String) (w v : json_data),
    getPath t p = some (json_data.map es) → lookupKey es k = some w →
    insertAt t p k v = some (t, p ++ [path_step.key k]) := by
  induction p with
  | nil =>
      intro t es k w v h hk
      simp [getPath] at h
      subst h
      simp [insertAt, hk]
  | cons s p' ih =>
      intro t es k w v h hk
      cases t with
      | map es₀ =>
          cases s with
          | key k₀ =>
              cases hl : lookupKey es₀ k₀ with
              | none => simp [getPath, hl] at h
              | some c =>
                  simp [getPath, hl] at h
                  have hc1 := ih c es k w v h hk
                  simp [insertAt, hl, hc1, setKey_self_eq es₀ k₀ c hl]
          | idx n => simp [getPath] at h
      | array ys =>
          cases s with
          | key k₀ => simp [getPath] at h
          | idx n =>
              cases hg : getIdx ys n with
              | none => simp [getPath, hg] at h
              | some c =>
                  simp [getPath, hg] at h
                  have hc1 := ih c es k w v h hk
                  simp [insertAt, hg, hc1, setIdx_self_eq ys n c hg]
      | null => cases s <;> simp [getPath] at h
      | boolean b => cases s <;> simp [getPath] at h
      | integer i => cases s <;> simp [getPath] at h
      | real r => cases s <;> simp [getPath] at h
      | string str => cases s <;> simp [getPath] at h

/-- Node stability: an insertion through any pointer never invalidates any
other pointer — every path that dereferenced successfully before the
insertion still dereferences successfully afterwards (`std::list` and
`std::unordered_map` never relocate nodes, and the program never erases). -/
theorem insertAt_mono (p : path) :
    ∀ (t t' : json_data) (k : String) (v : json_data) (q : path),
    insertAt t p k v = some (t', q) →
    ∀ (r : path) (w : json_data), getPath t r = some w → ∃ w', getPath t' r = some w' := by
  induction p with
  | nil =>
      intro t t' k v q hins r w hr
      cases t with
      | map es =>
          cases hl : lookupKey es k with
          | some u =>
              simp [insertAt, hl] at hins
              obtain ⟨h1, h2⟩ := hins
              subst h1
              exact ⟨w, hr⟩
          | none =>
              simp [insertAt, hl] at hins
              obtain ⟨h1, h2⟩ := hins
              subst h1
              cases r with
              | nil => exact ⟨json_data.map (es ++ [(k, v)]), by simp [getPath]⟩
              | cons s r' =>
                  cases s with
                  | key k₁ =>
                      cases hl1 : lookupKey es k₁ with
                      | none => simp [getPath, hl1] at hr
                      | some d =>
                          simp [getPath, hl1] at hr
                          exact ⟨w, by simp [getPath,
                            lookupKey_append_left es [(k, v)] k₁ d hl1, hr]⟩
                  | idx n => simp [getPath] at hr
      | array xs =>
          simp [insertAt] at hins
          obtain ⟨h1, h2⟩ := hins
          subst h1
          cases r with
          | nil => exact ⟨json_data.array (xs ++ [v]), by simp [getPath]⟩
          | cons s r' =>
              cases s with
              | key k₁ => simp [getPath] at hr
              | idx n =>
                  cases hg : getIdx xs n with
                  | none => simp [getPath, hg] at hr
                  | some d =>
                      simp [getPath, hg] at hr
                      exact ⟨w, by simp [getPath, getIdx_append_left xs [v] n d hg, hr]⟩
      | null => simp [insertAt] at hins
      | boolean b => simp [insertAt] at hins
      | integer i => simp [insertAt] at hins
      | real x => simp [insertAt] at hins
      | string str => simp [insertAt] at hins
  | cons s p' ih =>
      intro t t' k v q hins r w hr
      cases t with
      | map es =>
          cases s with
          | key k₀ =>
              cases hl : lookupKey es k₀ with
              | none => simp [insertAt, hl] at hins
              | some c =>
                  cases hi : insertAt c p' k v with
                  | none => simp [insertAt, hl, hi] at hins
                  | some pr =>
                      obtain ⟨c', q₀⟩ := pr
                      simp [insertAt, hl, hi] at hins
                      obtain ⟨h1, h2⟩ := hins
                      subst h1
                      cases r with
                      | nil => exact ⟨json_data.map (setKey es k₀ c'), by simp [getPath]⟩
                      | cons s₁ r' =>
                          cases s₁ with
                          | key k₁ =>
                              cases hl1 : lookupKey es k₁ with
                              | none => simp [getPath, hl1] at hr
                              | some d =>
                                  simp [getPath, hl1] at hr
                                  by_cases hk : k₁ = k₀
                                  · subst hk
                                    rw [hl] at hl1
                                    obtain rfl : c = d := by
                                      simpa using hl1
                                    obtain ⟨w', hw'⟩ := ih c c' k v q₀ hi r' w hr
                                    exact ⟨w', by
                                      simp [getPath,
                                        lookupKey_setKey_self es k₁ c c' hl, hw']⟩
                                  · exact ⟨w, by
                                      simp [getPath,
                                        lookupKey_setKey_ne es k₀ k₁ c' hk, hl1, hr]⟩
                          | idx n => simp [getPath] at hr
          | idx n => simp [insertAt] at hins
      | array ys =>
          cases s with
          | key k₀ => simp [insertAt] at hins
          | idx n =>
              cases hg : getIdx ys n with
              | none => simp [insertAt, hg] at hins
              | some c =>
                  cases hi : insertAt c p' k v with
                  | none => simp [insertAt, hg, hi] at hins
                  | some pr =>
                      obtain ⟨c', q₀⟩ := pr
                      simp [insertAt, hg, hi] at hins
                      obtain ⟨h1, h2⟩ := hins
                      subst h1
                      cases r with
                      | nil => exact ⟨json_data.array (setIdx ys n c'), by simp [getPath]⟩
                      | cons s₁ r' =>
                          cases s₁ with
                          | key k₁ => simp [getPath] at hr
                          | idx m =>
                              cases hg1 : getIdx ys m with
                              | none => simp [getPath, hg1] at hr
                              | some d =>
                                  simp [getPath, hg1] at hr
                                  by_cases hm : m = n
                                  · subst hm
                                    rw [hg] at hg1
                                    obtain rfl : c = d := by
                                      simpa using hg1
                                    obtain ⟨w', hw'⟩ := ih c c' k v q₀ hi r' w hr
                                    exact ⟨w', by
                                      simp [getPath, getIdx_setIdx_self ys m c c' hg, hw']⟩
                                  · exact ⟨w, by
                                      simp [getPath, getIdx_setIdx_ne ys n m c' hm, hg1, hr]⟩
      | null => cases s <;> simp [insertAt] at hins
      | boolean b => cases s <;> simp [insertAt] at hins
      | integer i => cases s <;> simp [insertAt] at hins
      | real x => cases s <;> simp [insertAt] at hins
      | string str => cases s <;> simp [insertAt] at hins

/-- The pointer returned by a successful insertion always dereferences to
some value in the updated tree (it is `&array.back()`, `&map.at(key)`, or
the root pointer). -/
theorem insertAt_resolves (p : path) :
    ∀ (t t' : json_data) (k : String) (v : json_data) (q : path),
    insertAt t p k v = some (t', q) → ∃ w, getPath t' q = some w := by
  induction p with
  | nil =>
      intro t t' k v q hins
      cases t with
      | map es =>
          cases hl : lookupKey es k with
          | some u =>
              simp [insertAt, hl] at hins
              obtain ⟨h1, h2⟩ := hins
              subst h1
              subst h2
              exact ⟨u, by simp [getPath, hl]⟩
          | none =>
              simp [insertAt, hl] at hins
              obtain ⟨h1, h2⟩ := hins
              subst h1
              subst h2
              exact ⟨v, by simp [getPath, lookupKey_append_absent es k v hl]⟩
      | array xs =>
          simp [insertAt] at hins
          obtain ⟨h1, h2⟩ := hins
          subst h1
          subst h2
          exact ⟨v, by simp [getPath, getIdx_append_length]⟩
      | null => simp [insertAt] at hins
      | boolean b => simp [insertAt] at hins
      | integer i => simp [insertAt] at hins
      | real x => simp [insertAt] at hins
      | string str => simp [insertAt] at hins
  | cons s p' ih =>
      intro t t' k v q hins
      cases t with
      | map es =>
          cases s with
          | key k₀ =>
              cases hl : lookupKey es k₀ with
              | none => simp [insertAt, hl] at hins
              | some c =>
                  cases hi : insertAt c p' k v with
                  | none => simp [insertAt, hl, hi] at hins
                  | some pr =>
                      obtain ⟨c', q₀⟩ := pr
                      simp [insertAt, hl, hi] at hins
                      obtain ⟨h1, h2⟩ := hins
                      subst h1
                      subst h2
                      obtain ⟨w, hw⟩ := ih c c' k v q₀ hi
                      exact ⟨w, by simp [getPath, lookupKey_setKey_self es k₀ c c' hl, hw]⟩
          | idx n => simp [insertAt] at hins
      | array ys =>
          cases s with
          | key k₀ => simp [insertAt] at hins
          | idx n =>
              cases hg : getIdx ys n with
              | none => simp [insertAt, hg] at hins
              | some c =>
                  cases hi : insertAt c p' k v with
                  | none => simp [insertAt, hg, hi] at hins
                  | some pr =>
                      obtain ⟨c', q₀⟩ := pr
                      simp [insertAt, hg, hi] at hins
                      obtain ⟨h1, h2⟩ := hins
                      subst h1
                      subst h2
                      obtain ⟨w, hw⟩ := ih c c' k v q₀ hi
                      exact ⟨w, by simp [getPath, getIdx_setIdx_self ys n c c' hg, hw]⟩
      | null => cases s <;> simp [insertAt] at hins
      | boolean b => cases s <;> simp [insertAt] at hins
      | integer i => cases s <;> simp [insertAt] at hins
      | real x => cases s <;> simp [insertAt] at hins
      | string str => cases s <;> simp [insertAt] at hins

/-- A successful `insert` leaves the stack and key buffer untouched, sets
a root under which the returned pointer dereferences, and keeps every
previously valid stack pointer dereferenceable. -/
theorem insert_inv (s : json_data_state) (v : json_data) (s' : json_data_state) (q : path)
    (hinv : StateInv s) (h : s.insert v = some (s', q)) :
    s'.stack = s.stack ∧ s'.tempKey = s.tempKey ∧
      ∃ t', s'.root = some t' ∧ (∃ w, getPath t' q = some w) ∧
        ∀ r ∈ s.stack, ∃ w', getPath t' r = some w' := by
  cases hroot : s.root with
  | none =>
      simp [json_data_state.insert, hroot] at h
      obtain ⟨h1, h2⟩ := h
      subst h1
      subst h2
      refine ⟨rfl, rfl, v, rfl, ⟨v, by simp [getPath]⟩, ?_⟩
      intro r hr
      obtain ⟨t, w, ht, _⟩ := hinv r hr
      rw [hroot] at ht
      cases ht
  | some t =>
      cases hstk : s.stack with
      | nil => simp [json_data_state.insert, hroot, hstk] at h
      | cons p rest =>
          cases hins : insertAt t p s.tempKey v with
          | none => simp [json_data_state.insert, hroot, hstk, hins] at h
          | some pr =>
              obtain ⟨t', q'⟩ := pr
              simp [json_data_state.insert, hroot, hstk, hins] at h
              obtain ⟨h1, h2⟩ := h
              subst h1
              subst h2
              refine ⟨rfl, rfl, t', rfl,
                insertAt_resolves p t t' s.tempKey v q' hins, ?_⟩
              intro r hr
              rw [← hstk] at hr
              obtain ⟨t₀, w, ht₀, hres⟩ := hinv r hr
              rw [hroot] at ht₀
              obtain rfl : t = t₀ := by simpa using ht₀
              exact insertAt_mono p t t' s.tempKey v q' hins r w hres

/-- State validity is preserved by a scalar insertion. -/
theorem insert_ok_inv (s : json_data_state) (v : json_data) (s' : json_data_state) (q : path)
    (hinv : StateInv s) (hi : s.insert v = some (s', q)) : StateInv s' := by
  obtain ⟨hst, _, t', hrt, _, hall⟩ := insert_inv s v s' q hinv hi
  intro r hr
  rw [hst] at hr
  obtain ⟨w', hw'⟩ := hall r hr
  exact ⟨t', w', hrt, hw'⟩

/-- State validity is preserved by a container insertion followed by the
push of the returned pointer (the start-map / start-array callbacks). -/
theorem insert_push_inv (s : json_data_state) (v : json_data) (s' : json_data_state) (q : path)
    (hinv : StateInv s) (hi : s.insert v = some (s', q)) :
    StateInv { s' with stack := q :: s'.stack } := by
  obtain ⟨hst, _, t', hrt, hq, hall⟩ := insert_inv s v s' q hinv hi
  intro r hr
  simp at hr
  cases hr with
  | inl hr =>
      subst hr
      obtain ⟨w, hw⟩ := hq
      exact ⟨t', w, hrt, hw⟩
  | inr hr =>
      rw [hst] at hr
      obtain ⟨w', hw'⟩ := hall r hr
      exact ⟨t', w', hrt, hw'⟩

/-- State validity is preserved by every callback that reports success. -/
theorem step_ok_inv (s : json_data_state) (e : event) (s₁ : json_data_state)
    (hinv : StateInv s) (h : step s e = step_result.ok s₁) : StateInv s₁ := by
  cases e with
  | read_null =>
      cases hi : s.insert json_data.null with
      | none => simp [step, hi] at h
      | some pr =>
          obtain ⟨s', q⟩ := pr
          simp [step, hi] at h
          subst h
          exact insert_ok_inv s _ s' q hinv hi
  | read_boolean b =>
      cases hi : s.insert (json_data.boolean b) with
      | none => simp [step, hi] at h
      | some pr =>
          obtain ⟨s', q⟩ := pr
          simp [step, hi] at h
          subst h
          exact insert_ok_inv s _ s' q hinv hi
  | read_integer i =>
      cases hi : s.insert (json_data.integer i) with
      | none => simp [step, hi] at h
      | some pr =>
          obtain ⟨s', q⟩ := pr
          simp [step, hi] at h
          subst h
          exact insert_ok_inv s _ s' q hinv hi
  | read_double x =>
      cases hi : s.insert (json_data.real x) with
      | none => simp [step, hi] at h
      | some pr =>
          obtain ⟨s', q⟩ := pr
          simp [step, hi] at h
          subst h
          exact insert_ok_inv s _ s' q hinv hi
  | read_string str =>
      cases hi : s.insert (json_data.string str) with
      | none => simp [step, hi] at h
      | some pr =>
          obtain ⟨s', q⟩ := pr
          simp [step, hi] at h
          subst h
          exact insert_ok_inv s _ s' q hinv hi
  | start_map =>
      cases hi : s.insert (json_data.map []) with
      | none => simp [step, hi] at h
      | some pr =>
          obtain ⟨s', q⟩ := pr
          simp [step, hi] at h
          subst h
          exact insert_push_inv s _ s' q hinv hi
  | start_array =>
      cases hi : s.insert (json_data.array []) with
      | none => simp [step, hi] at h
      | some pr =>
          obtain ⟨s', q⟩ := pr
          simp [step, hi] at h
          subst h
          exact insert_push_inv s _ s' q hinv hi
  | map_key k =>
      simp [step] at h
      subst h
      intro r hr
      exact hinv r hr
  | end_map =>
      cases hstk : s.stack with
      | nil => simp [step, hstk] at h
      | cons p rest =>
          simp [step, hstk] at h
          subst h
          intro r hr
          exact hinv r (by rw [hstk]; exact List.mem_cons_of_mem p hr)
  | end_array =>
      cases hstk : s.stack with
      | nil => simp [step, hstk] at h
      | cons p rest =>
          simp [step, hstk] at h
          subst h
          intro r hr
          exact hinv r (by rw [hstk]; exact List.mem_cons_of_mem p hr)

/-- State validity is preserved along any successfully delivered event
sequence. -/
theorem run_events_inv (es : List event) :
    ∀ (s s' : json_data_state), StateInv s →
    run_events s es = step_result.ok s' → StateInv s' := by
  induction es with
  | nil =>
      intro s s' h hr
      simp [run_events] at hr
      subst hr
      exact h
  | cons e rest ih =>
      intro s s' h hr
      cases hs : step s e with
      | ok s₁ =>
          rw [run_events, hs] at hr
          exact ih s₁ s' (step_ok_inv s e s₁ h hs) hr
      | cancelled s₁ => rw [run_events, hs] at hr; cases hr
      | ub => rw [run_events, hs] at hr; cases hr

/-- Every reachable builder state is valid: all stack pointers
dereference. -/
theorem reachable_inv (s : json_data_state) (h : Reachable s) : StateInv s := by
  obtain ⟨es, hes⟩ := h
  refine run_events_inv es init_state s ?_ hes
  intro r hr
  simp [init_state] at hr

/-- `insert` when the stack top points at an array: always succeeds and
appends at the back (`emplace_back`), regardless of the key buffer. -/
theorem insert_top_array (s : json_data_state) (t : json_data) (p : path)
    (rest : List path) (xs : List json_data) (v : json_data)
    (hroot : s.root = some t) (hstk : s.stack = p :: rest)
    (hget : getPath t p = some (json_data.array xs)) :
    ∃ t', s.insert v = some (⟨s.stack, s.tempKey, some t'⟩, p ++ [path_step.idx xs.length]) ∧
      getPath t' p = some (json_data.array (xs ++ [v])) ∧
      getPath t' (p ++ [path_step.idx xs.length]) = some v := by
  obtain ⟨t', h1, h2⟩ := insertAt_of_array p t xs s.tempKey v hget
  refine ⟨t', ?_, h2, ?_⟩
  · simp [json_data_state.insert, hroot, hstk, h1]
  · rw [getPath_append, h2]
    simp [getPath, getIdx_append_length]

/-- `insert` when the stack top points at a map and the buffered key is
absent from it: succeeds, adds the member, and the returned pointer
dereferences to the new value. -/
theorem insert_top_map_absent (s : json_data_state) (t : json_data) (p : path)
    (rest : List path) (es : List (String × json_data)) (v : json_data)
    (hroot : s.root = some t) (hstk : s.stack = p :: rest)
    (hget : getPath t p = some (json_data.map es))
    (hk : lookupKey es s.tempKey = none) :
    ∃ t', s.insert v = some (⟨s.stack, s.tempKey, some t'⟩, p ++ [path_step.key s.tempKey]) ∧
      getPath t' p = some (json_data.map (es ++ [(s.tempKey, v)])) ∧
      getPath t' (p ++ [path_step.key s.tempKey]) = some v := by
  obtain ⟨t', h1, h2⟩ := insertAt_of_map_absent p t es s.tempKey v hget hk
  refine ⟨t', ?_, h2, ?_⟩
  · simp [json_data_state.insert, hroot, hstk, h1]
  · rw [getPath_append, h2]
    simp [getPath, lookupKey_append_absent es s.tempKey v hk]

/-- `insert` when the stack top points at a map that already holds the
buffered key: still succeeds, but the tree is unchanged and the returned
pointer addresses the pre-existing member. -/
theorem insert_top_map_present (s : json_data_state) (t : json_data) (p : path)
    (rest : List path) (es : List (String × json_data)) (w v : json_data)
    (hroot : s.root = some t) (hstk : s.stack = p :: rest)
    (hget : getPath t p = some (json_data.map es))
    (hk : lookupKey es s.tempKey = some w) :
    s.insert v = some (⟨s.stack, s.tempKey, some t⟩, p ++ [path_step.key s.tempKey]) ∧
      getPath t (p ++ [path_step.key s.tempKey]) = some w := by
  have h1 := insertAt_of_map_present p t es s.tempKey w v hget hk
  constructor
  · simp [json_data_state.insert, hroot, hstk, h1]
  · rw [getPath_append, hget]
    simp [getPath, hk]

/-- Delivering integer events inside an open top-level array appends them
in arrival order, and the closing event pops back to an empty stack. -/
theorem run_integers_in_array (vs : List Int) :
    ∀ acc : List json_data,
    run_events ⟨[[]], "", some (json_data.array acc)⟩
        (vs.map event.read_integer ++ [event.end_array])
      = step_result.ok ⟨[], "", some (json_data.array (acc ++ vs.map json_data.integer))⟩ := by
  induction vs with
  | nil => intro acc; simp [run_events, step]
  | cons v vs ih =>
      intro acc
      have hstep : step ⟨[[]], "", some (json_data.array acc)⟩ (event.read_integer v)
          = step_result.ok ⟨[[]], "", some (json_data.array (acc ++ [json_data.integer v]))⟩ := by
        simp [step, json_data_state.insert, insertAt]
      simp only [List.map_cons, List.cons_append, run_events, hstep, List.append_eq]
      rw [ih (acc ++ [json_data.integer v])]
      simp

/-- The serializer emits an array's elements in stored order: the walk of
the element list is the concatenation of the walks of the elements. -/
theorem generate_list_eq_flatMap (xs : List json_data) :
    generate_list xs = xs.flatMap generate_json := by
  induction xs with
  | nil => simp [generate_list]
  | cons x rest ih => simp [generate_list, ih]

/-- Inserting through a pointer that dereferences to a scalar fails: the
dispatch finds neither an array nor a map and returns null
(program.cpp line 166). -/
theorem insertAt_of_scalar (p : path) :
    ∀ (t w : json_data) (k : String) (v : json_data),
    getPath t p = some w → is_container w = false →
    insertAt t p k v = none := by
  induction p with
  | nil =>
      intro t w k v h hc
      simp [getPath] at h
      subst h
      cases t with
      | map es => simp [is_container] at hc
      | array xs => simp [is_container] at hc
      | null => rfl
      | boolean b => rfl
      | integer i => rfl
      | real x => rfl
      | string str => rfl
  | cons s p' ih =>
      intro t w k v h hc
      cases t with
      | map es =>
          cases s with
          | key k₀ =>
              cases hl : lookupKey es k₀ with
              | none => simp [getPath, hl] at h
              | some c =>
                  simp [getPath, hl] at h
                  simp [insertAt, hl, ih c w k v h hc]
          | idx n => simp [getPath] at h
      | array ys =>
          cases s with
          | key k₀ => simp [getPath] at h
          | idx n =>
              cases hg : getIdx ys n with
              | none => simp [getPath, hg] at h
              | some c =>
                  simp [getPath, hg] at h
                  simp [insertAt, hg, ih c w k v h hc]
      | null => cases s <;> simp [getPath] at h
      | boolean b => cases s <;> simp [getPath] at h
      | integer i => cases s <;> simp [getPath] at h
      | real x => cases s <;> simp [getPath] at h
      | string str => cases s <;> simp [getPath] at h

/-- C1 counterexample: building the event stream of `{"k":1,"k":2}` yields
an Object whose single member `k` holds `Integer 1`, not `Integer 2`: the
claimed last-write-wins replacement does not happen
(`std::unordered_map::emplace` never overwrites). -/
theorem C1_counterexample :
    run [event.start_map, event.map_key "k", event.read_integer 1,
        event.map_key "k", event.read_integer 2, event.end_map]
      = step_result.ok ⟨[], "k", some (json_data.map [("k", json_data.integer 1)])⟩ ∧
    json_data.integer 1 ≠ json_data.integer 2 :=
  ⟨rfl, fun h => by injection h with h'; exact absurd h' (by decide)⟩

/-- C1 amended: Object keys are unique, but inserting a value under a key
that already exists KEEPS the prior value (first-write-wins): for any key
`k` and integers `a`, `b`, the event stream of `{k:a, k:b}` builds an
Object with exactly one member `k` whose value is `Integer a`. -/
theorem C1_first_write_wins (k : String) (a b : Int) :
    run [event.start_map, event.map_key k, event.read_integer a,
        event.map_key k, event.read_integer b, event.end_map]
      = step_result.ok ⟨[], k, some (json_data.map [(k, json_data.integer a)])⟩ := by
  simp [run, run_events, step, json_data_state.insert, insertAt, init_state, lookupKey]

/-- C2 counterexample: a single `EndArray` event does not fail with any
error — it executes `std::stack::pop()` on the empty stack (undefined
behaviour); and an `EndObject` closing an open Array is accepted and pops
it, producing output. -/
theorem C2_counterexample :
    run [event.end_array] = step_result.ub ∧
    run [event.start_array, event.end_map]
      = step_result.ok ⟨[], "", some (json_data.array [])⟩ :=
  ⟨rfl, rfl⟩

/-- C2 amended: the end-map and end-array callbacks perform no balance or
kind check whatsoever: with a non-empty stack they unconditionally pop it
and report success whichever container kind is on top, and with an empty
stack they execute `std::stack::pop()` on an empty stack — undefined
behaviour.  No `UnbalancedContainer` failure path exists; the builder
relies on the upstream parser never to deliver unbalanced end events. -/
theorem C2_end_events_unchecked (s : json_data_state) :
    (s.stack = [] → step s event.end_map = step_result.ub ∧
      step s event.end_array = step_result.ub) ∧
    (∀ p rest, s.stack = p :: rest →
      step s event.end_map = step_result.ok ⟨rest, s.tempKey, s.root⟩ ∧
      step s event.end_array = step_result.ok ⟨rest, s.tempKey, s.root⟩) := by
  constructor
  · intro h
    constructor <;> simp [step, h]
  · intro p rest h
    constructor <;> simp [step, h]

/-- C2 witness: the amended statement applied to the initial state. -/
theorem C2_end_events_unchecked_witness :
    step init_state event.end_map = step_result.ub ∧
    step init_state event.end_array = step_result.ub :=
  (C2_end_events_unchecked init_state).1 rfl

/-- C3 counterexample: a scalar arriving while an Object is the insertion
target with no preceding `ObjectKey` does not fail with `UnexpectedToken`:
the build succeeds and stores the value under the initial empty-string
key. -/
theorem C3_counterexample :
    run [event.start_map, event.read_integer 7, event.end_map]
      = step_result.ok ⟨[], "",
          some (json_data.map [("", json_data.integer 7)])⟩ :=
  rfl

/-- C3 amended: when the insertion target is an Object, a value event with
no fresh preceding `ObjectKey` is not rejected — `insert` succeeds for
every value, using whatever the key buffer currently holds (the initial
empty string, or a leftover already-consumed key); when that buffered key
is absent from the Object the value is stored under it. -/
theorem C3_no_key_check (s : json_data_state) (t : json_data) (p : path)
    (rest : List path) (es : List (String × json_data))
    (hroot : s.root = some t) (hstk : s.stack = p :: rest)
    (hget : getPath t p = some (json_data.map es)) :
    (∀ v : json_data, ∃ s' q, s.insert v = some (s', q)) ∧
    (lookupKey es s.tempKey = none →
      ∀ i : Int, ∃ t', step s (event.read_integer i)
          = step_result.ok ⟨s.stack, s.tempKey, some t'⟩ ∧
        getPath t' (p ++ [path_step.key s.tempKey]) = some (json_data.integer i)) := by
  constructor
  · intro v
    cases hk : lookupKey es s.tempKey with
    | none =>
        obtain ⟨t', h1, _, _⟩ := insert_top_map_absent s t p rest es v hroot hstk hget hk
        exact ⟨_, _, h1⟩
    | some w =>
        obtain ⟨h1, _⟩ := insert_top_map_present s t p rest es w v hroot hstk hget hk
        exact ⟨_, _, h1⟩
  · intro hk i
    obtain ⟨t', h1, _, h3⟩ :=
      insert_top_map_absent s t p rest es (json_data.integer i) hroot hstk hget hk
    refine ⟨t', ?_, h3⟩
    simp [step, h1]

/-- C3 witness: the amended statement applied to the state holding an
open empty Object, with the untouched empty-string key buffer. -/
theorem C3_no_key_check_witness :
    ∃ t', step ⟨[[]], "", some (json_data.map [])⟩ (event.read_integer 7)
        = step_result.ok ⟨[[]], "", some t'⟩ ∧
      getPath t' ([] ++ [path_step.key ""]) = some (json_data.integer 7) :=
  (C3_no_key_check ⟨[[]], "", some (json_data.map [])⟩ (json_data.map []) [] [] []
    rfl rfl rfl).2 rfl 7

/-- C4 counterexample: an `ObjectKey` event with an empty stack, or with
an Array as the insertion target, is accepted (the callback returns 1 and
stores the key), not rejected with `UnexpectedToken`. -/
theorem C4_counterexample :
    run [event.map_key "k"] = step_result.ok ⟨[], "k", none⟩ ∧
    run [event.start_array, event.map_key "k"]
      = step_result.ok ⟨[[]], "k", some (json_data.array [])⟩ :=
  ⟨rfl, rfl⟩

/-- C4 amended: the map-key callback performs no context check at all: in
every state it stores the key bytes in the buffer and reports success,
with an empty stack or an Array on top just as well as with an Object. -/
theorem C4_key_event_unchecked (s : json_data_state) (k : String) :
    step s (event.map_key k) = step_result.ok ⟨s.stack, k, s.root⟩ := rfl

/-- C5 counterexample: after the buffered key `k` is used to insert a
value, the buffer still holds `k` (it is not cleared to the initial empty
string). -/
theorem C5_counterexample :
    run [event.start_map, event.map_key "k", event.read_integer 1]
      = step_result.ok ⟨[[]], "k", some (json_data.map [("k", json_data.integer 1)])⟩ ∧
    "k" ≠ "" :=
  ⟨rfl, by decide⟩

/-- C5 amended: the key buffer is NOT consumed or cleared on use —
`insert` never modifies `tempKey` — so the buffered key stays valid after
use and is silently reused by later valued events arriving in an Object
with no fresh `ObjectKey`: in the run below the second `BeginArray`
reuses key `k`, `emplace` finds `k` present and discards the new array,
the pushed handle addresses the FIRST array, and the later element lands
inside it, yielding `{"k":[5]}` with no error. -/
theorem C5_key_buffer_persists :
    (∀ (s : json_data_state) (v : json_data) (s' : json_data_state) (q : path),
      s.insert v = some (s', q) → s'.tempKey = s.tempKey) ∧
    run [event.start_map, event.map_key "k", event.start_array, event.end_array,
        event.start_array, event.read_integer 5, event.end_array, event.end_map]
      = step_result.ok ⟨[], "k",
          some (json_data.map [("k", json_data.array [json_data.integer 5])])⟩ := by
  constructor
  · intro s v s' q h
    cases hroot : s.root with
    | none =>
        simp [json_data_state.insert, hroot] at h
        obtain ⟨h1, _⟩ := h
        subst h1
        rfl
    | some t =>
        cases hstk : s.stack with
        | nil => simp [json_data_state.insert, hroot, hstk] at h
        | cons p rest =>
            cases hins : insertAt t p s.tempKey v with
            | none => simp [json_data_state.insert, hroot, hstk, hins] at h
            | some pr =>
                obtain ⟨t', q'⟩ := pr
                simp [json_data_state.insert, hroot, hstk, hins] at h
                obtain ⟨h1, _⟩ := h
                subst h1
                rfl
  · rfl

/-- C5 witness: the tempKey-preservation part applied to the root
insertion performed from the initial state. -/
theorem C5_key_buffer_persists_witness :
    (⟨[], "", some json_data.null⟩ : json_data_state).tempKey = init_state.tempKey :=
  C5_key_buffer_persists.1 init_state json_data.null ⟨[], "", some json_data.null⟩ [] rfl

/-- C6: with an empty container stack and the root slot already set, every
scalar and every container-begin event makes the build fail — `insert`
returns null (program.cpp line 147, the path the spec names
`MultipleTopLevelValues`), the callback returns 0 and yajl cancels the
parse — leaving the state untouched, with no value constructed or
inserted. -/
theorem C6_second_top_level_fails (s : json_data_state) (r : json_data)
    (hstk : s.stack = []) (hroot : s.root = some r) :
    step s event.read_null = step_result.cancelled s ∧
    (∀ b, step s (event.read_boolean b) = step_result.cancelled s) ∧
    (∀ i, step s (event.read_integer i) = step_result.cancelled s) ∧
    (∀ x, step s (event.read_double x) = step_result.cancelled s) ∧
    (∀ str, step s (event.read_string str) = step_result.cancelled s) ∧
    step s event.start_map = step_result.cancelled s ∧
    step s event.start_array = step_result.cancelled s := by
  have hins : ∀ v : json_data, s.insert v = none := by
    intro v
    simp [json_data_state.insert, hroot, hstk]
  refine ⟨?_, fun b => ?_, fun i => ?_, fun x => ?_, fun str => ?_, ?_, ?_⟩ <;>
    simp [step, hins]

/-- C6 witness: the second top-level `Null` after a completed root is
cancelled. -/
theorem C6_second_top_level_fails_witness :
    step ⟨[], "", some json_data.null⟩ event.read_null
      = step_result.cancelled ⟨[], "", some json_data.null⟩ :=
  (C6_second_top_level_fails ⟨[], "", some json_data.null⟩ json_data.null rfl rfl).1

/-- C8 counterexample: in `{"k":1` followed by key `k` and `BeginArray`,
the pushed stack handle dereferences to the pre-existing `Integer 1`, not
to a newly created empty Array — the new container was discarded by
`emplace` and the handle of `map.at("k")` was pushed instead. -/
theorem C8_counterexample :
    run [event.start_map, event.map_key "k", event.read_integer 1,
        event.map_key "k", event.start_array]
      = step_result.ok ⟨[[path_step.key "k"], []], "k",
          some (json_data.map [("k", json_data.integer 1)])⟩ ∧
    getPath (json_data.map [("k", json_data.integer 1)]) [path_step.key "k"]
      = some (json_data.integer 1) ∧
    json_data.integer 1 ≠ json_data.array [] :=
  ⟨rfl, rfl, fun h => json_data.noConfusion h⟩

/-- C8 amended: a begin event constructs an empty container, inserts it
through the same `insert` routine a scalar would use, and pushes the
pointer `insert` returned; that pointer addresses the newly created empty
container when the root slot was free, or the target was an Array, or an
Object not yet holding the buffered key — but when the buffered key is
already present in the target Object, the new container is discarded
(`emplace` no-op) and the pushed pointer addresses the pre-existing
member under that key instead. -/
theorem C8_push_semantics :
    (∀ s : json_data_state, s.root = none →
      step s event.start_array
        = step_result.ok ⟨[] :: s.stack, s.tempKey, some (json_data.array [])⟩) ∧
    (∀ (s : json_data_state) (t : json_data) (p : path) (rest : List path)
        (xs : List json_data), s.root = some t → s.stack = p :: rest →
      getPath t p = some (json_data.array xs) →
      ∃ t', step s event.start_array
          = step_result.ok
              ⟨(p ++ [path_step.idx xs.length]) :: s.stack, s.tempKey, some t'⟩ ∧
        getPath t' (p ++ [path_step.idx xs.length]) = some (json_data.array [])) ∧
    (∀ (s : json_data_state) (t : json_data) (p : path) (rest : List path)
        (es : List (String × json_data)), s.root = some t → s.stack = p :: rest →
      getPath t p = some (json_data.map es) → lookupKey es s.tempKey = none →
      ∃ t', step s event.start_map
          = step_result.ok
              ⟨(p ++ [path_step.key s.tempKey]) :: s.stack, s.tempKey, some t'⟩ ∧
        getPath t' (p ++ [path_step.key s.tempKey]) = some (json_data.map [])) ∧
    (∀ (s : json_data_state) (t : json_data) (p : path) (rest : List path)
        (es : List (String × json_data)) (w : json_data),
      s.root = some t → s.stack = p :: rest →
      getPath t p = some (json_data.map es) → lookupKey es s.tempKey = some w →
      step s event.start_array
        = step_result.ok
            ⟨(p ++ [path_step.key s.tempKey]) :: s.stack, s.tempKey, some t⟩ ∧
      getPath t (p ++ [path_step.key s.tempKey]) = some w) := by
  refine ⟨?_, ?_, ?_, ?_⟩
  · intro s h
    simp [step, json_data_state.insert, h]
  · intro s t p rest xs hroot hstk hget
    obtain ⟨t', h1, _, h3⟩ := insert_top_array s t p rest xs (json_data.array []) hroot hstk hget
    refine ⟨t', ?_, h3⟩
    simp [step, h1]
  · intro s t p rest es hroot hstk hget hk
    obtain ⟨t', h1, _, h3⟩ :=
      insert_top_map_absent s t p rest es (json_data.map []) hroot hstk hget hk
    refine ⟨t', ?_, h3⟩
    simp [step, h1]
  · intro s t p rest es w hroot hstk hget hk
    obtain ⟨h1, h2⟩ :=
      insert_top_map_present s t p rest es w (json_data.array []) hroot hstk hget hk
    refine ⟨?_, h2⟩
    simp [step, h1]

/-- C8 witness: the root case applied to the initial state. -/
theorem C8_push_semantics_witness :
    step init_state event.start_array
      = step_result.ok ⟨[[]], "", some (json_data.array [])⟩ :=
  C8_push_semantics.1 init_state rfl

/-- C9: Array order is event-arrival order and the serializer preserves
it: (1) a top-level array built from any sequence of integer events holds
exactly those values in arrival order; (2) every insertion into any array
anywhere in the tree appends at the back, keeping the existing elements in
place; (3) the serializer walk of an array emits its elements'
renderings in stored order. -/
theorem C9_array_order :
    (∀ vs : List Int,
      run (event.start_array :: (vs.map event.read_integer ++ [event.end_array]))
        = step_result.ok ⟨[], "", some (json_data.array (vs.map json_data.integer))⟩) ∧
    (∀ (t : json_data) (p : path) (xs : List json_data) (k : String) (v : json_data),
      getPath t p = some (json_data.array xs) →
      ∃ t', insertAt t p k v = some (t', p ++ [path_step.idx xs.length]) ∧
        getPath t' p = some (json_data.array (xs ++ [v]))) ∧
    (∀ xs : List json_data,
      generate_json (json_data.array xs)
        = gen_event.array_open :: xs.flatMap generate_json ++ [gen_event.array_close]) := by
  refine ⟨?_, ?_, ?_⟩
  · intro vs
    have h1 : run (event.start_array :: (vs.map event.read_integer ++ [event.end_array]))
        = run_events ⟨[[]], "", some (json_data.array [])⟩
            (vs.map event.read_integer ++ [event.end_array]) := rfl
    rw [h1, run_integers_in_array vs []]
    simp
  · intro t p xs k v h
    exact insertAt_of_array p t xs k v h
  · intro xs
    simp [generate_json, generate_list_eq_flatMap]

/-- C9 witness: the append-at-the-back part applied to an empty top-level
array receiving a Null. -/
theorem C9_array_order_witness :
    ∃ t', insertAt (json_data.array []) [] "" json_data.null
        = some (t', [] ++ [path_step.idx ([] : List json_data).length]) ∧
      getPath t' [] = some (json_data.array ([] ++ [json_data.null])) :=
  C9_array_order.2.1 (json_data.array []) [] [] "" json_data.null rfl

/-- C10 counterexample: after `{"k":1` followed by key `k` and
`BeginObject`, the reachable state's stack top dereferences to
`Integer 1` — a scalar, neither an Object nor an Array. -/
theorem C10_counterexample :
    run [event.start_map, event.map_key "k", event.read_integer 1,
        event.map_key "k", event.start_map]
      = step_result.ok ⟨[[path_step.key "k"], []], "k",
          some (json_data.map [("k", json_data.integer 1)])⟩ ∧
    getPath (json_data.map [("k", json_data.integer 1)]) [path_step.key "k"]
      = some (json_data.integer 1) ∧
    is_container (json_data.integer 1) = false :=
  ⟨rfl, rfl, rfl⟩

/-- C10 amended: in every reachable builder state each stack handle does
dereference to SOME node of the current tree (pointer validity holds),
but that node need not be a container — a duplicate-key begin pushes the
handle of the pre-existing member, which may be a scalar; the insert
dispatch through a scalar handle then returns null (failing the build)
rather than finding a container. -/
theorem C10_stack_handles :
    (∀ s : json_data_state, Reachable s →
      ∀ p ∈ s.stack, ∃ t w, s.root = some t ∧ getPath t p = some w) ∧
    (∀ (s : json_data_state) (t w : json_data) (p : path) (rest : List path)
        (v : json_data), s.root = some t → s.stack = p :: rest →
      getPath t p = some w → is_container w = false →
      s.insert v = none) := by
  constructor
  · intro s h
    exact reachable_inv s h
  · intro s t w p rest v hroot hstk hget hc
    simp [json_data_state.insert, hroot, hstk,
      insertAt_of_scalar p t w s.tempKey v hget hc]

/-- C10 witness: pointer validity at the reachable one-open-Object state,
and the failing insert through the scalar handle of the counterexample
state. -/
theorem C10_stack_handles_witness :
    (∃ t w, (⟨[[]], "", some (json_data.map [])⟩ : json_data_state).root = some t ∧
      getPath t [] = some w) ∧
    (⟨[[path_step.key "k"], []], "k",
        some (json_data.map [("k", json_data.integer 1)])⟩
      : json_data_state).insert json_data.null = none :=
  ⟨C10_stack_handles.1 ⟨[[]], "", some (json_data.map [])⟩ ⟨[event.start_map], rfl⟩
      [] (by simp),
   C10_stack_handles.2 _ (json_data.map [("k", json_data.integer 1)])
      (json_data.integer 1) [path_step.key "k"] [[]] json_data.null rfl rfl rfl rfl⟩
